import Mathlib

/-!
Verification of `rename_project.py`, a one-shot project-renaming tool.

The program is embedded shallowly over `List Char` (file contents and
paths are UTF-8 text; Python strings become lists of characters):

* `strStarts o s` models Python's `s.startswith(o)` test used implicitly
  by `str.replace`'s left-to-right scan;
* `containsStr s o` models Python's substring test `o in s`;
* `pyReplace s o n` models CPython's `s.replace(o, n)` (literal,
  non-regex, leftmost, non-overlapping substitution; the empty-pattern
  case inserts `n` around every character, as CPython does);
* `applyReplacements` models the loop at lines 21-22 of the source:
  a left fold of `str.replace` over the replacement table in insertion
  order (Python dicts iterate in insertion order);
* `replacements` is the literal table from lines 39-72 of `main`;
* `update_file_content` models lines 12-33: it receives the result of
  the read attempt (`none` when opening/decoding raised an exception,
  which the source catches) and returns the boolean result together
  with the content written back (`none` when no write is performed);
* `excluded`, `processFile`, `runMain` model the loop of `main`
  (lines 91-106).  Since `glob.glob` enumerates the working directory,
  the discovered paths are a parameter (`glob` produces relative paths
  with no `.`/`..` components, which is what `splitOnSlash` assumes
  when modelling `Path(file_path).parts`).  The run state records the
  file system as a map from path to readable content (`none` =
  unreadable), the two counters, the list of attempted file opens
  (`reads`), and the printed per-file and summary lines (`log`; the
  textual error detail of an exception is abstracted away).
-/

/-- Does `s` start with `o`?  Models Python `s.startswith(o)`. -/
def strStarts : List Char → List Char → Bool
  | [], _ => true
  | _ :: _, [] => false
  | c :: o', d :: s' => if c = d then strStarts o' s' else false

/-- Substring containment: models Python's `o in s` (used at line 98). -/
def containsStr : List Char → List Char → Bool
  | [], o => strStarts o []
  | s@(_ :: rest), o => strStarts o s || containsStr rest o

/-- Fuelled scanner behind `pyReplace`.  At each position, if the pattern
`o` matches, emit `n` and skip `o.length` characters, otherwise keep one
character; the fuel (instantiated with `s.length`, an upper bound on the
number of steps when `o ≠ []`) makes the recursion structural so that
concrete runs reduce in the kernel. -/
def replaceFuel (o n : List Char) : Nat → List Char → List Char
  | 0, s => s
  | _ + 1, [] => []
  | f + 1, c :: rest =>
    if strStarts o (c :: rest) then
      n ++ replaceFuel o n f ((c :: rest).drop o.length)
    else
      c :: replaceFuel o n f rest

/-- Model of CPython `s.replace(o, n)` (line 22 of the source): literal,
non-overlapping, leftmost substring substitution.  For the empty pattern
CPython inserts `n` before every character and at the end. -/
def pyReplace (s o n : List Char) : List Char :=
  if o = [] then n ++ s.foldr (fun c acc => c :: (n ++ acc)) []
  else replaceFuel o n s.length s

/-- Lines 21-22: `for old_text, new_text in replacements.items():
content = content.replace(old_text, new_text)` — a left fold over the
table in insertion order. -/
def applyReplacements (reps : List (List Char × List Char)) (content : List Char) : List Char :=
  reps.foldl (fun c p => pyReplace c p.1 p.2) content

/-- The replacement table of `main` (lines 39-72), in insertion order.
Every pair in the source is literally an identity pair. -/
def replacements : List (List Char × List Char) :=
  [ ("SPDX-FileCopyrightText: 2024 A3Mailer Project".toList,
     "SPDX-FileCopyrightText: 2024 A3Mailer Project".toList),
    ("A3Mailer DAV Server".toList, "A3Mailer DAV Server".toList),
    ("A3Mailer Mail Server".toList, "A3Mailer Mail Server".toList),
    ("A3Mailer SMTP Server".toList, "A3Mailer SMTP Server".toList),
    ("A3Mailer IMAP Server".toList, "A3Mailer IMAP Server".toList),
    ("A3Mailer HTTP Server".toList, "A3Mailer HTTP Server".toList),
    ("A3Mailer Server".toList, "A3Mailer Server".toList),
    ("A3Mailer High-Performance Server".toList,
     "A3Mailer High-Performance Server".toList),
    ("A3Mailer implementation".toList, "A3Mailer implementation".toList),
    ("A3Mailer protocol".toList, "A3Mailer protocol".toList),
    ("A3Mailer backend".toList, "A3Mailer backend".toList),
    ("A3Mailer frontend".toList, "A3Mailer frontend".toList),
    ("A3Mailer codebase".toList, "A3Mailer codebase".toList),
    ("A3Mailer project".toList, "A3Mailer project".toList),
    ("A3Mailer Team".toList, "A3Mailer Team".toList),
    ("a3mailer-server".toList, "a3mailer-server".toList),
    ("a3mailer-main".toList, "a3mailer-main".toList),
    ("urn:a3mailer:".toList, "urn:a3mailer:".toList),
    ("A3Mailer configuration".toList, "A3Mailer configuration".toList),
    ("A3Mailer setup".toList, "A3Mailer setup".toList),
    ("A3Mailer deployment".toList, "A3Mailer deployment".toList) ]

/-- Lines 12-33.  The argument is the outcome of the read attempt
(`none` when `open`/decode raised, which the `except` clause turns into
a `False` return with no write).  The second component is the content
written back, `none` when no write happens. -/
def update_file_content (readResult : Option (List Char))
    (reps : List (List Char × List Char)) : Bool × Option (List Char) :=
  match readResult with
  | none => (false, none)
  | some content =>
    if applyReplacements reps content = content then (false, none)
    else (true, some (applyReplacements reps content))

/-- Models `Path(file_path).parts` for the slash-separated relative
paths that `glob.glob(..., recursive=True)` produces. -/
def splitOnSlash : List Char → List (List Char)
  | [] => [[]]
  | c :: rest =>
    if c = '/' then [] :: splitOnSlash rest
    else
      match splitOnSlash rest with
      | [] => [[c]]
      | h :: t => (c :: h) :: t

/-- Line 94: `any(part.startswith('.') for part in Path(file_path).parts)`. -/
def hiddenPath (p : List Char) : Bool :=
  (splitOnSlash p).any (fun part => strStarts ['.'] part)

/-- Line 98: the reserved directory fragments, in source order. -/
def skipDirs : List (List Char) :=
  ["target/".toList, "node_modules/".toList, ".git/".toList, "__pycache__/".toList]

/-- Line 98: `any(skip in file_path for skip in [...])` — substring
containment on the whole path string. -/
def skipMatch (p : List Char) : Bool :=
  skipDirs.any (fun d => containsStr p d)

/-- A path is skipped by the loop (lines 93-99) when it has a hidden
segment or contains a reserved directory fragment. -/
def excluded (p : List Char) : Bool :=
  hiddenPath p || skipMatch p

/-- One printed line of the run (the textual error detail of an
exception is abstracted away, only the kind and path are kept). -/
inductive LogLine where
  | updatedMsg (path : List Char)
  | errorMsg (path : List Char)
  | summaryMsg (updated total : Nat)
deriving DecidableEq

/-- State of one run of `main`: the observable file system (`none` =
unreadable), the two counters of lines 87-88, the attempted file opens,
and the printed lines. -/
structure RunState where
  fs : List Char → Option (List Char)
  total : Nat
  updated : Nat
  reads : List (List Char)
  log : List LogLine

/-- Body of the loop of `main` (lines 93-103) for one discovered path:
skip excluded paths without touching the file or the counters;
otherwise count it, attempt the read, and rewrite the file exactly when
the replacement pass changed the content. -/
def processFile (reps : List (List Char × List Char)) (st : RunState)
    (path : List Char) : RunState :=
  if excluded path then st
  else
    match st.fs path with
    | none =>
      { st with total := st.total + 1, reads := st.reads ++ [path],
                log := st.log ++ [LogLine.errorMsg path] }
    | some content =>
      if applyReplacements reps content = content then
        { st with total := st.total + 1, reads := st.reads ++ [path] }
      else
        { st with total := st.total + 1, reads := st.reads ++ [path],
                  updated := st.updated + 1,
                  log := st.log ++ [LogLine.updatedMsg path],
                  fs := fun q => if q = path then
                          some (applyReplacements reps content)
                        else st.fs q }

/-- Counters start at zero (lines 87-88) over a given file system. -/
def initState (fs0 : List Char → Option (List Char)) : RunState :=
  ⟨fs0, 0, 0, [], []⟩

/-- `main` (lines 87-106): fold the loop body over the discovered paths
with the fixed table, then print the summary line. -/
def runMain (paths : List (List Char)) (fs0 : List Char → Option (List Char)) : RunState :=
  let st := paths.foldl (processFile replacements) (initState fs0)
  { st with log := st.log ++ [LogLine.summaryMsg st.updated st.total] }

/-- Empty file system: every path is unreadable. -/
def fsEmpty : List Char → Option (List Char) := fun _ => none

/-- A fresh run state over the empty file system. -/
def stEmpty : RunState := ⟨fsEmpty, 0, 0, [], []⟩

/-- Table of the C1 counterexample: a single non-identity entry that
deletes `"ab"`, whose new-string (the empty string) contains no key. -/
def cexReps : List (List Char × List Char) := [("ab".toList, ([] : List Char))]

/-- Content of the C1 counterexample. -/
def cexContent : List Char := "aabb".toList

/-- Table of the C8 scenario: the single non-identity pair of the spec. -/
def scenarioReps : List (List Char × List Char) :=
  [("a3mailer-server".toList, "mailserver-core".toList)]

/-- Content of the C8 scenario file `notes.md`. -/
def scenarioContent : List Char := "See a3mailer-server for details".toList

/-- Run state holding just the C8 scenario file. -/
def notesState : RunState :=
  ⟨fun q => if q = "notes.md".toList then some scenarioContent else none,
   0, 0, [], []⟩

/-- Table for the C1 amended-claim witness. -/
def wReps : List (List Char × List Char) := [("a".toList, "x".toList)]

/-- Content for the C1 amended-claim witness. -/
def wContent : List Char := "abc".toList

/-! ### Helper lemmas -/

theorem strStarts_nil_left (s : List Char) : strStarts [] s = true := by
  cases s <;> rfl

theorem strStarts_self_append (o s : List Char) : strStarts o (o ++ s) = true := by
  induction o with
  | nil => exact strStarts_nil_left s
  | cons c o' ih => simp [strStarts, ih]

theorem eq_append_drop_of_strStarts :
    ∀ o s : List Char, strStarts o s = true → o ++ s.drop o.length = s := by
  intro o
  induction o with
  | nil => intro s _; simp
  | cons c o' ih =>
    intro s h
    cases s with
    | nil => simp [strStarts] at h
    | cons d s' =>
      simp only [strStarts] at h
      by_cases hcd : c = d
      · rw [if_pos hcd] at h
        subst hcd
        simpa [List.drop] using ih s' h
      · rw [if_neg hcd] at h
        exact absurd h (by simp)

theorem strStarts_single_iff (c d : Char) (s : List Char) :
    strStarts [c] (d :: s) = true ↔ c = d := by
  simp only [strStarts]
  by_cases hcd : c = d
  · simp [hcd, strStarts_nil_left]
  · simp [hcd]

theorem containsStr_nil_right (s : List Char) : containsStr s [] = true := by
  cases s with
  | nil => rfl
  | cons c rest => simp [containsStr, strStarts_nil_left]

theorem containsStr_single_iff (s : List Char) (c : Char) :
    containsStr s [c] = true ↔ c ∈ s := by
  induction s with
  | nil => simp [containsStr, strStarts]
  | cons d rest ih =>
    simp only [containsStr, Bool.or_eq_true, ih, strStarts_single_iff,
      List.mem_cons]

theorem mem_of_mem_drop' {c : Char} {k : Nat} {s : List Char}
    (h : c ∈ s.drop k) : c ∈ s :=
  List.mem_of_mem_drop h

theorem replaceFuel_id (o : List Char) :
    ∀ (f : Nat) (s : List Char), replaceFuel o o f s = s := by
  intro f
  induction f with
  | zero => intro s; rfl
  | succ f ih =>
    intro s
    cases s with
    | nil => rfl
    | cons c rest =>
      simp only [replaceFuel]
      by_cases h : strStarts o (c :: rest) = true
      · rw [if_pos h, ih]
        exact eq_append_drop_of_strStarts o (c :: rest) h
      · rw [if_neg h, ih]

theorem foldr_id_chars (s : List Char) :
    s.foldr (fun c acc => c :: (([] : List Char) ++ acc)) [] = s := by
  induction s with
  | nil => rfl
  | cons c rest ih => exact congrArg (List.cons c) ih

theorem pyReplace_id (s o : List Char) : pyReplace s o o = s := by
  by_cases ho : o = []
  · subst ho
    show ([] : List Char) ++ s.foldr (fun c acc => c :: (([] : List Char) ++ acc)) [] = s
    rw [List.nil_append]
    exact foldr_id_chars s
  · simp only [pyReplace, if_neg ho, replaceFuel_id]

theorem applyReplacements_id {reps : List (List Char × List Char)}
    (h : ∀ p ∈ reps, p.1 = p.2) :
    ∀ content, applyReplacements reps content = content := by
  induction reps with
  | nil => intro content; rfl
  | cons r rest ih =>
    intro content
    have hr : r.1 = r.2 := h r (List.mem_cons_self r rest)
    have hc : pyReplace content r.1 r.2 = content := by
      rw [hr]; exact pyReplace_id content r.2
    show applyReplacements rest (pyReplace content r.1 r.2) = content
    rw [hc]
    exact ih (fun p hp => h p (List.mem_cons_of_mem r hp)) content

theorem replacements_identity : ∀ p ∈ replacements, p.1 = p.2 := by decide

theorem mem_replaceFuel {x : Char} (o n : List Char) :
    ∀ (f : Nat) (s : List Char), x ∈ replaceFuel o n f s → x ∈ s ∨ x ∈ n := by
  intro f
  induction f with
  | zero => intro s h; exact Or.inl h
  | succ f ih =>
    intro s h
    cases s with
    | nil => exact absurd h (by simp [replaceFuel])
    | cons c rest =>
      simp only [replaceFuel] at h
      by_cases hs : strStarts o (c :: rest) = true
      · rw [if_pos hs] at h
        rcases List.mem_append.mp h with h | h
        · exact Or.inr h
        · rcases ih _ h with h | h
          · exact Or.inl (mem_of_mem_drop' h)
          · exact Or.inr h
      · rw [if_neg hs] at h
        rcases List.mem_cons.mp h with h | h
        · exact Or.inl (h ▸ List.mem_cons_self c rest)
        · rcases ih rest h with h | h
          · exact Or.inl (List.mem_cons_of_mem c h)
          · exact Or.inr h

theorem mem_foldr_insert {x : Char} (n : List Char) :
    ∀ s : List Char, x ∈ s.foldr (fun c acc => c :: (n ++ acc)) [] → x ∈ s ∨ x ∈ n := by
  intro s
  induction s with
  | nil => intro h; exact absurd h (by simp)
  | cons c rest ih =>
    intro h
    rcases List.mem_cons.mp h with h | h
    · exact Or.inl (h ▸ List.mem_cons_self c rest)
    · rcases List.mem_append.mp h with h | h
      · exact Or.inr h
      · rcases ih h with h | h
        · exact Or.inl (List.mem_cons_of_mem c h)
        · exact Or.inr h

theorem mem_pyReplace {x : Char} {s o n : List Char}
    (h : x ∈ pyReplace s o n) : x ∈ s ∨ x ∈ n := by
  by_cases ho : o = []
  · subst ho
    have h' : x ∈ n ++ s.foldr (fun c acc => c :: (n ++ acc)) [] := h
    rcases List.mem_append.mp h' with h' | h'
    · exact Or.inr h'
    · rcases mem_foldr_insert n s h' with h' | h'
      · exact Or.inl h'
      · exact Or.inr h'
  · simp only [pyReplace, if_neg ho] at h
    exact mem_replaceFuel o n s.length s h

theorem not_mem_pyReplace {c : Char} {s o n : List Char}
    (hs : c ∉ s) (hn : c ∉ n) : c ∉ pyReplace s o n := by
  intro h
  rcases mem_pyReplace h with h | h
  · exact hs h
  · exact hn h

theorem not_mem_replaceFuel_single {c : Char} {n : List Char} (hn : c ∉ n) :
    ∀ (f : Nat) (s : List Char), s.length ≤ f → c ∉ replaceFuel [c] n f s := by
  intro f
  induction f with
  | zero =>
    intro s hlen
    have : s = [] := List.eq_nil_of_length_eq_zero (Nat.le_zero.mp hlen)
    subst this
    simp [replaceFuel]
  | succ f ih =>
    intro s hlen
    cases s with
    | nil => simp [replaceFuel]
    | cons d rest =>
      simp only [replaceFuel]
      have hrest : rest.length ≤ f := by
        simpa [Nat.succ_le_succ_iff] using hlen
      by_cases hs : strStarts [c] (d :: rest) = true
      · rw [if_pos hs]
        intro hmem
        rcases List.mem_append.mp hmem with h | h
        · exact hn h
        · exact ih rest hrest (by simpa using h)
      · rw [if_neg hs]
        intro hmem
        rcases List.mem_cons.mp hmem with h | h
        · exact hs ((strStarts_single_iff c d rest).mpr h)
        · exact ih rest hrest h

theorem not_mem_pyReplace_single {c : Char} {n : List Char} (hn : c ∉ n)
    (s : List Char) : c ∉ pyReplace s [c] n := by
  simp only [pyReplace, if_neg (by simp : ([c] : List Char) ≠ [])]
  exact not_mem_replaceFuel_single hn s.length s (Nat.le_refl _)

theorem replaceFuel_congr {o : List Char} (n : List Char) (ho : o ≠ []) :
    ∀ (f f' : Nat) (s : List Char), s.length ≤ f → s.length ≤ f' →
      replaceFuel o n f s = replaceFuel o n f' s := by
  intro f
  induction f with
  | zero =>
    intro f' s hf hf'
    have : s = [] := List.eq_nil_of_length_eq_zero (Nat.le_zero.mp hf)
    subst this
    cases f' <;> rfl
  | succ f ih =>
    intro f' s hf hf'
    cases s with
    | nil => cases f' <;> rfl
    | cons c rest =>
      cases f' with
      | zero => exact absurd hf' (by simp)
      | succ f' =>
        have holen : 1 ≤ o.length := List.length_pos.mpr ho
        have hdrop : ((c :: rest).drop o.length).length ≤ rest.length := by
          simp only [List.length_drop, List.length_cons]
          omega
        have hrest : rest.length ≤ f := by
          simpa [Nat.succ_le_succ_iff] using hf
        have hrest' : rest.length ≤ f' := by
          simpa [Nat.succ_le_succ_iff] using hf'
        simp only [replaceFuel]
        by_cases hs : strStarts o (c :: rest) = true
        · rw [if_pos hs, if_pos hs]
          rw [ih f' _ (Nat.le_trans hdrop hrest) (Nat.le_trans hdrop hrest')]
        · rw [if_neg hs, if_neg hs]
          rw [ih f' rest hrest hrest']

theorem pyReplace_head_match {o : List Char} (n s : List Char) (ho : o ≠ []) :
    pyReplace (o ++ s) o n = n ++ pyReplace s o n := by
  simp only [pyReplace, if_neg ho]
  cases o with
  | nil => exact absurd rfl ho
  | cons c o' =>
    have hguard : strStarts (c :: o') (c :: (o' ++ s)) = true :=
      strStarts_self_append (c :: o') s
    have hdrop : (c :: (o' ++ s)).drop (c :: o').length = s := by
      show (o' ++ s).drop o'.length = s
      exact List.drop_left o' s
    have h1 : replaceFuel (c :: o') n ((c :: o') ++ s).length ((c :: o') ++ s)
        = n ++ replaceFuel (c :: o') n (o' ++ s).length s := by
      show (if strStarts (c :: o') (c :: (o' ++ s)) = true then
              n ++ replaceFuel (c :: o') n (o' ++ s).length
                    ((c :: (o' ++ s)).drop (c :: o').length)
            else c :: replaceFuel (c :: o') n (o' ++ s).length (o' ++ s))
          = n ++ replaceFuel (c :: o') n (o' ++ s).length s
      rw [if_pos hguard, hdrop]
    rw [h1]
    have hle : s.length ≤ (o' ++ s).length := by
      rw [List.length_append]
      exact Nat.le_add_left s.length o'.length
    rw [replaceFuel_congr n (by simp) (o' ++ s).length s.length s hle (Nat.le_refl _)]

theorem replaceFuel_not_contains {o : List Char} (n : List Char) :
    ∀ (f : Nat) (s : List Char), containsStr s o = false → replaceFuel o n f s = s := by
  intro f
  induction f with
  | zero => intro s _; rfl
  | succ f ih =>
    intro s hs
    cases s with
    | nil => rfl
    | cons c rest =>
      simp only [containsStr, Bool.or_eq_false_iff] at hs
      have hneg : ¬ (strStarts o (c :: rest) = true) := by
        rw [hs.1]; exact Bool.false_ne_true
      simp only [replaceFuel]
      rw [if_neg hneg, ih rest hs.2]

theorem pyReplace_not_contains {s o n : List Char}
    (h : containsStr s o = false) : pyReplace s o n = s := by
  by_cases ho : o = []
  · subst ho
    rw [containsStr_nil_right] at h
    exact absurd h (by simp)
  · simp only [pyReplace, if_neg ho]
    exact replaceFuel_not_contains n s.length s h

theorem fold_preserves_not_mem {c : Char} :
    ∀ (reps : List (List Char × List Char)) (acc : List Char),
      (∀ q ∈ reps, c ∉ q.2) → c ∉ acc → c ∉ applyReplacements reps acc := by
  intro reps
  induction reps with
  | nil => intro acc _ hacc; exact hacc
  | cons r rest ih =>
    intro acc hnew hacc
    have hr : c ∉ r.2 := hnew r (List.mem_cons_self r rest)
    have hacc' : c ∉ pyReplace acc r.1 r.2 := not_mem_pyReplace hacc hr
    exact ih (pyReplace acc r.1 r.2)
      (fun q hq => hnew q (List.mem_cons_of_mem r hq)) hacc'

theorem fold_removes_char {c : Char} :
    ∀ (reps : List (List Char × List Char)) (acc : List Char),
      (∀ q ∈ reps, c ∉ q.2) →
      (∀ p, p ∈ reps → p.1 = [c] → c ∉ applyReplacements reps acc) := by
  intro reps
  induction reps with
  | nil => intro acc _ p hp; exact absurd hp (by simp)
  | cons r rest ih =>
    intro acc hnew p hp h1
    have hrn : c ∉ r.2 := hnew r (List.mem_cons_self r rest)
    have hnew' : ∀ q ∈ rest, c ∉ q.2 :=
      fun q hq => hnew q (List.mem_cons_of_mem r hq)
    rcases List.mem_cons.mp hp with hpr | hpr
    · have hstep : c ∉ pyReplace acc r.1 r.2 := by
        have : r.1 = [c] := by rw [hpr] at h1; exact h1
        rw [this]
        exact not_mem_pyReplace_single hrn acc
      exact fold_preserves_not_mem rest (pyReplace acc r.1 r.2) hnew' hstep
    · exact ih (pyReplace acc r.1 r.2) hnew' p hpr h1
theorem processFile_excluded {reps : List (List Char × List Char)}
    {st : RunState} {p : List Char} (h : excluded p = true) :
    processFile reps st p = st := by
  simp only [processFile, h, if_true]

theorem processFile_id_table (st : RunState) (p : List Char) :
    (processFile replacements st p).fs = st.fs ∧
    (processFile replacements st p).updated = st.updated := by
  by_cases hex : excluded p = true
  · rw [processFile_excluded hex]
    exact ⟨rfl, rfl⟩
  · simp only [processFile, hex, if_false, Bool.false_eq_true]
    cases hfs : st.fs p with
    | none => exact ⟨rfl, rfl⟩
    | some content =>
      dsimp only
      rw [if_pos (applyReplacements_id replacements_identity content)]
      exact ⟨rfl, rfl⟩

theorem foldl_id_table :
    ∀ (paths : List (List Char)) (st : RunState),
      (paths.foldl (processFile replacements) st).fs = st.fs ∧
      (paths.foldl (processFile replacements) st).updated = st.updated := by
  intro paths
  induction paths with
  | nil => intro st; exact ⟨rfl, rfl⟩
  | cons p rest ih =>
    intro st
    have h1 := processFile_id_table st p
    have h2 := ih (processFile replacements st p)
    exact ⟨h2.1.trans h1.1, h2.2.trans h1.2⟩

theorem processFile_mono {reps : List (List Char × List Char)}
    {st : RunState} (p : List Char) (h : st.updated ≤ st.total) :
    (processFile reps st p).updated ≤ (processFile reps st p).total := by
  by_cases hex : excluded p = true
  · rw [processFile_excluded hex]; exact h
  · simp only [processFile, hex, if_false, Bool.false_eq_true]
    cases hfs : st.fs p with
    | none => exact Nat.le_succ_of_le h
    | some content =>
      dsimp only
      by_cases hch : applyReplacements reps content = content
      · rw [if_pos hch]
        exact Nat.le_succ_of_le h
      · rw [if_neg hch]
        exact Nat.succ_le_succ h

theorem foldl_mono {reps : List (List Char × List Char)} :
    ∀ (paths : List (List Char)) (st : RunState), st.updated ≤ st.total →
      (paths.foldl (processFile reps) st).updated ≤
        (paths.foldl (processFile reps) st).total := by
  intro paths
  induction paths with
  | nil => intro st h; exact h
  | cons p rest ih =>
    intro st h
    exact ih (processFile reps st p) (processFile_mono p h)

theorem runMain_log_getLast (paths : List (List Char))
    (fs0 : List Char → Option (List Char)) :
    (runMain paths fs0).log.getLast? =
      some (LogLine.summaryMsg
        (paths.foldl (processFile replacements) (initState fs0)).updated
        (paths.foldl (processFile replacements) (initState fs0)).total) := by
  show ((paths.foldl (processFile replacements) (initState fs0)).log ++
      [LogLine.summaryMsg
        (paths.foldl (processFile replacements) (initState fs0)).updated
        (paths.foldl (processFile replacements) (initState fs0)).total]).getLast?
    = _
  rw [List.getLast?_concat]


/-! ### Claim theorems -/

/-- C1, counterexample.  The claim — a file containing at least one key
ends with zero occurrences of any key after the replacement pass,
provided no new-string re-introduces a key — is false: with the single
entry mapping `"ab"` to the empty string (whose new-string contains no
key), the content `"aabb"` contains the key, yet the pass yields
`"ab"`, which still contains the key: deleting the match at position 1
juxtaposes the surrounding `a` and `b` into a fresh occurrence. -/
theorem claim1_counterexample :
    (∃ p ∈ cexReps, containsStr cexContent p.1 = true) ∧
    (∀ p ∈ cexReps, ∀ q ∈ cexReps, containsStr p.2 q.1 = false) ∧
    ¬ (∀ p ∈ cexReps, containsStr (applyReplacements cexReps cexContent) p.1 = false) := by
  decide

/-- C1, amended.  For every content containing at least one key, if
every key is a single character and no new-string contains a character
of any key (a strengthening of "no new-string re-introduces a key" that
also rules out keys re-formed by juxtaposition at replacement
boundaries), then after the pass the content contains zero occurrences
of any key, and `update_file_content` reports the file as updated. -/
theorem claim1_amended (reps : List (List Char × List Char)) (content : List Char)
    (hsingle : ∀ p ∈ reps, p.1.length = 1)
    (hnew : ∀ p ∈ reps, ∀ q ∈ reps, ∀ c ∈ q.1, c ∉ p.2)
    (hkey : ∃ p ∈ reps, containsStr content p.1 = true) :
    (∀ p ∈ reps, containsStr (applyReplacements reps content) p.1 = false) ∧
    (update_file_content (some content) reps).1 = true := by
  have key_none : ∀ p ∈ reps, containsStr (applyReplacements reps content) p.1 = false := by
    intro p hp
    have hlen := hsingle p hp
    cases h1 : p.1 with
    | nil => rw [h1] at hlen; simp at hlen
    | cons c tail =>
      cases tail with
      | cons c' tail' => rw [h1] at hlen; simp at hlen
      | nil =>
        have hnotin : c ∉ applyReplacements reps content := by
          refine fold_removes_char reps content ?_ p hp h1
          intro q hq
          exact hnew q hq p hp c (by rw [h1]; exact List.mem_cons_self c [])
        cases hb : containsStr (applyReplacements reps content) [c] with
        | false => rfl
        | true => exact absurd ((containsStr_single_iff _ c).mp hb) hnotin
  refine ⟨key_none, ?_⟩
  obtain ⟨p₀, hp₀, hc₀⟩ := hkey
  have hlen := hsingle p₀ hp₀
  cases h1 : p₀.1 with
  | nil => rw [h1] at hlen; simp at hlen
  | cons c tail =>
    cases tail with
    | cons c' tail' => rw [h1] at hlen; simp at hlen
    | nil =>
      have hmem : c ∈ content := by
        rw [h1] at hc₀
        exact (containsStr_single_iff content c).mp hc₀
      have hout : c ∉ applyReplacements reps content := by
        have := key_none p₀ hp₀
        rw [h1] at this
        intro hin
        rw [(containsStr_single_iff _ c).mpr hin] at this
        exact absurd this (by simp)
      have hne : applyReplacements reps content ≠ content := by
        intro heq
        rw [heq] at hout
        exact hout hmem
      show (if applyReplacements reps content = content then
              ((false : Bool), (none : Option (List Char)))
            else (true, some (applyReplacements reps content))).1 = true
      rw [if_neg hne]

/-- C1, witness for the amended claim at a concrete input: the table
maps the single-character key `"a"` to `"x"` and the content `"abc"`
contains the key; afterwards no key occurs and the file counts as
updated. -/
theorem claim1_amended_witness :
    (∀ p ∈ wReps, containsStr (applyReplacements wReps wContent) p.1 = false) ∧
    (update_file_content (some wContent) wReps).1 = true :=
  claim1_amended wReps wContent (by decide) (by decide) (by decide)

/-- C2: every pair of the built-in table is an identity pair, hence the
replacement pass is the identity on every successfully decoded content,
`update_file_content` returns `false`, and no write is performed (the
written-content component is `none`). -/
theorem claim2_identity_table :
    (∀ p ∈ replacements, p.1 = p.2) ∧
    ∀ content : List Char,
      applyReplacements replacements content = content ∧
      update_file_content (some content) replacements = (false, none) := by
  refine ⟨replacements_identity, ?_⟩
  intro content
  have hid := applyReplacements_id replacements_identity content
  refine ⟨hid, ?_⟩
  show (if applyReplacements replacements content = content then
          ((false : Bool), (none : Option (List Char)))
        else (true, some (applyReplacements replacements content))) = (false, none)
  rw [if_pos hid]

/-- C2, witness at a concrete content. -/
theorem claim2_witness :
    applyReplacements replacements "A3Mailer Server says hello".toList
        = "A3Mailer Server says hello".toList ∧
    update_file_content (some "A3Mailer Server says hello".toList) replacements
        = (false, none) :=
  claim2_identity_table.2 "A3Mailer Server says hello".toList

/-- C3: when the replacement pass leaves a content unchanged,
`update_file_content` returns `false` and writes nothing, and the loop
body counts the file in `total` only: the file system, the `updated`
counter and the printed log are untouched (the read attempt is the only
effect). -/
theorem claim3_no_change_no_write (reps : List (List Char × List Char))
    (content : List Char) (h : applyReplacements reps content = content)
    (st : RunState) (p : List Char) :
    update_file_content (some content) reps = (false, none) ∧
    (excluded p = false → st.fs p = some content →
      processFile reps st p
        = { st with total := st.total + 1, reads := st.reads ++ [p] }) := by
  constructor
  · show (if applyReplacements reps content = content then
            ((false : Bool), (none : Option (List Char)))
          else (true, some (applyReplacements reps content))) = (false, none)
    rw [if_pos h]
  · intro hex hfs
    simp only [processFile, hex, Bool.false_eq_true, if_false]
    rw [hfs]
    dsimp only
    rw [if_pos h]

/-- C3, witness: `"hello"` contains no key of the actual table, so the
file with that content is read, left unchanged, not written, and not
counted as updated. -/
theorem claim3_witness :
    update_file_content (some "hello".toList) replacements = (false, none) ∧
    processFile replacements
        ⟨fun q => if q = "a.md".toList then some "hello".toList else none, 0, 0, [], []⟩
        "a.md".toList
      = ⟨fun q => if q = "a.md".toList then some "hello".toList else none,
         1, 0, ["a.md".toList], []⟩ := by
  have h := claim3_no_change_no_write replacements "hello".toList (by decide)
    ⟨fun q => if q = "a.md".toList then some "hello".toList else none, 0, 0, [], []⟩
    "a.md".toList
  exact ⟨h.1, h.2 (by decide) (by decide)⟩

/-- C4: the replacement pass is a left fold over the table in its fixed
(insertion) order — the empty table is the identity, and each entry is
applied to the result of the previous entry's substitution — and each
step is literal non-regex substitution: a leftmost match is replaced and
the scan resumes after it (non-overlapping), while a content without any
occurrence of the pattern is returned unchanged. -/
theorem claim4_fold_structure (p : List Char × List Char)
    (reps : List (List Char × List Char)) (content o n s : List Char) :
    applyReplacements [] content = content ∧
    applyReplacements (p :: reps) content
      = applyReplacements reps (pyReplace content p.1 p.2) ∧
    (o ≠ [] → pyReplace (o ++ s) o n = n ++ pyReplace s o n) ∧
    (containsStr content o = false → pyReplace content o n = content) :=
  ⟨rfl, rfl, fun ho => pyReplace_head_match n s ho,
   fun h => pyReplace_not_contains h⟩

/-- C4, witness at concrete strings. -/
theorem claim4_witness :
    pyReplace ("ab".toList ++ "cab".toList) "ab".toList "X".toList
      = "X".toList ++ pyReplace "cab".toList "ab".toList "X".toList ∧
    pyReplace "xyz".toList "ab".toList "X".toList = "xyz".toList := by
  have h := claim4_fold_structure ("a".toList, "b".toList) [] "xyz".toList
    "ab".toList "X".toList "cab".toList
  exact ⟨h.2.2.1 (by decide), h.2.2.2 (by decide)⟩

/-- C5: an unreadable file on a non-excluded path is caught per file — a
failure line with the path is logged, `total` is incremented, `updated`
and the file system are untouched — the fold continues with the
remaining paths, and every run ends with the printed summary line. -/
theorem claim5_error_handling (reps : List (List Char × List Char))
    (st : RunState) (p : List Char) (rest paths : List (List Char))
    (fs0 : List Char → Option (List Char))
    (hex : excluded p = false) (hfs : st.fs p = none) :
    processFile reps st p
      = { st with total := st.total + 1, reads := st.reads ++ [p],
                  log := st.log ++ [LogLine.errorMsg p] } ∧
    (p :: rest).foldl (processFile reps) st
      = rest.foldl (processFile reps) (processFile reps st p) ∧
    (∃ u t, (runMain paths fs0).log.getLast? = some (LogLine.summaryMsg u t)) := by
  refine ⟨?_, rfl, ⟨_, _, runMain_log_getLast paths fs0⟩⟩
  simp only [processFile, hex, Bool.false_eq_true, if_false]
  rw [hfs]

/-- C5, witness: a run state where `"a.md"` is unreadable. -/
theorem claim5_witness :
    processFile replacements stEmpty "a.md".toList
      = ⟨fsEmpty, 1, 0, ["a.md".toList], [LogLine.errorMsg "a.md".toList]⟩ ∧
    (∃ u t, (runMain [] fsEmpty).log.getLast? = some (LogLine.summaryMsg u t)) := by
  have h := claim5_error_handling replacements stEmpty "a.md".toList [] [] fsEmpty
    (by decide) rfl
  exact ⟨h.1, h.2.2⟩

/-- C6: with the program's own (all-identity) table no file content is
ever changed, so the run is idempotent: the file system after one run
equals the initial one, a second run leaves it unchanged as well, and
the second run counts zero files as updated. -/
theorem claim6_idempotent (paths : List (List Char))
    (fs0 : List Char → Option (List Char)) :
    (runMain paths fs0).fs = fs0 ∧
    (runMain paths (runMain paths fs0).fs).fs = (runMain paths fs0).fs ∧
    (runMain paths (runMain paths fs0).fs).updated = 0 := by
  have h1 : ∀ g : List Char → Option (List Char), (runMain paths g).fs = g := by
    intro g
    show (paths.foldl (processFile replacements) (initState g)).fs = g
    exact (foldl_id_table paths (initState g)).1
  refine ⟨h1 fs0, h1 _, ?_⟩
  show (paths.foldl (processFile replacements)
        (initState (runMain paths fs0).fs)).updated = 0
  exact (foldl_id_table paths (initState (runMain paths fs0).fs)).2

/-- C6, witness at a one-path run. -/
theorem claim6_witness :
    (runMain ["a.md".toList] (runMain ["a.md".toList] fsEmpty).fs).updated = 0 :=
  (claim6_idempotent ["a.md".toList] fsEmpty).2.2

/-- C7: a discovered path with a path segment starting with `'.'`, or
one matching a reserved-directory fragment, is skipped outright: the
loop body returns the state unchanged — the file is not opened for read
or write (the `reads` trace and the file system are untouched) and the
path is not counted in `total`. -/
theorem claim7_exclusion (reps : List (List Char × List Char))
    (st : RunState) (p : List Char)
    (h : hiddenPath p = true ∨ skipMatch p = true) :
    processFile reps st p = st := by
  apply processFile_excluded
  rcases h with h | h
  · simp [excluded, h]
  · simp [excluded, h]

/-- C7, witness: a file under a hidden directory is skipped. -/
theorem claim7_witness :
    hiddenPath ".cfg/notes.md".toList = true ∧
    processFile replacements stEmpty ".cfg/notes.md".toList = stEmpty :=
  ⟨by decide, claim7_exclusion replacements stEmpty _ (Or.inl (by decide))⟩

/-- C8: with the non-identity entry `a3mailer-server → mailserver-core`,
the scenario file content `See a3mailer-server for details` is rewritten
to `See mailserver-core for details`, `update_file_content` returns
`true` with that written content, and processing `notes.md` increments
the `updated` counter by exactly one. -/
theorem claim8_scenario :
    applyReplacements scenarioReps scenarioContent
      = "See mailserver-core for details".toList ∧
    update_file_content (some scenarioContent) scenarioReps
      = (true, some ("See mailserver-core for details".toList)) ∧
    excluded "notes.md".toList = false ∧
    (processFile scenarioReps notesState "notes.md".toList).updated
      = notesState.updated + 1 ∧
    (processFile scenarioReps notesState "notes.md".toList).fs "notes.md".toList
      = some ("See mailserver-core for details".toList) := by
  refine ⟨by decide, by decide, by decide, by decide, by decide⟩

/-- C9: the `updated` counter never exceeds the `total` counter — at
every point of the fold over the discovered paths (every prefix of the
path list) and in the printed summary line. -/
theorem claim9_invariant (fs0 : List Char → Option (List Char))
    (paths : List (List Char)) (n u t : Nat) :
    ((paths.take n).foldl (processFile replacements) (initState fs0)).updated
      ≤ ((paths.take n).foldl (processFile replacements) (initState fs0)).total ∧
    ((runMain paths fs0).log.getLast? = some (LogLine.summaryMsg u t) → u ≤ t) := by
  constructor
  · exact foldl_mono (paths.take n) (initState fs0) (Nat.le_refl 0)
  · intro h
    rw [runMain_log_getLast paths fs0] at h
    simp only [Option.some.injEq, LogLine.summaryMsg.injEq] at h
    obtain ⟨hu, ht⟩ := h
    rw [← hu, ← ht]
    exact foldl_mono paths (initState fs0) (Nat.le_refl 0)

/-- C9, witness: the empty run prints the summary `0 ≤ 0`. -/
theorem claim9_witness :
    (runMain [] fsEmpty).log.getLast? = some (LogLine.summaryMsg 0 0) ∧
    (0 : Nat) ≤ 0 :=
  ⟨rfl, (claim9_invariant fsEmpty [] 0 0 0).2 rfl⟩

/-- C10: the reserved-directory exclusion is substring containment on
the whole path string: any path containing one of the four fragments
anywhere is skipped — not opened, not counted — even when no path
segment equals a reserved directory name. -/
theorem claim10_substring_exclusion (reps : List (List Char × List Char))
    (st : RunState) (p : List Char) (h : skipMatch p = true) :
    processFile reps st p = st := by
  apply processFile_excluded
  simp [excluded, h]

/-- C10, witness: `mytarget/notes.md` has no segment equal to a
reserved directory name and no hidden segment, yet it is skipped
because the path string contains `target/`. -/
theorem claim10_witness :
    (∀ part ∈ splitOnSlash "mytarget/notes.md".toList,
        part ≠ "target".toList ∧ part ≠ "node_modules".toList ∧
        part ≠ ".git".toList ∧ part ≠ "__pycache__".toList) ∧
    hiddenPath "mytarget/notes.md".toList = false ∧
    skipMatch "mytarget/notes.md".toList = true ∧
    processFile replacements stEmpty "mytarget/notes.md".toList = stEmpty :=
  ⟨by decide, by decide, by decide,
   claim10_substring_exclusion replacements stEmpty _ (by decide)⟩
